import Mathlib

/-!
Verification of the hex-grid algorithm library (`algo.rs`): a breadth-first
search `Traverser` over hexagonal coordinates and two line-of-sight (LOS)
variants (`los`, `los2`).  The hexagonal coordinate algebra (an external
collaborator crate) is embedded concretely as axial integer pairs; the line
interpolation and direction-to collaborators used by `los2` are kept as
explicit function parameters.
-/

namespace Hex

/-- Axial hex-grid coordinate, the `Coordinate<I>` type instantiated at
integers. -/
abbrev Coord := ℤ × ℤ

/-- One of the six hex directions, in cyclic (60° step) order. -/
abbrev Dir := Fin 6

/-- Axial offset of each direction; consecutive entries are 60° rotations. -/
def dirOffset : Dir → Coord
  | 0 => (1, 0)
  | 1 => (1, -1)
  | 2 => (0, -1)
  | 3 => (-1, 0)
  | 4 => (-1, 1)
  | 5 => (0, 1)

/-- `pos + dir` of the coordinate algebra. -/
def addDir (c : Coord) (d : Dir) : Coord := (c.1 + (dirOffset d).1, c.2 + (dirOffset d).2)

/-- `dir + Angle::Left`: rotate one 60° step counterclockwise. -/
def rotL (d : Dir) : Dir := d + 5

/-- `dir + Angle::Right`: rotate one 60° step clockwise. -/
def rotR (d : Dir) : Dir := d + 1

/-- `Coordinate::neighbors()`: the six adjacent coordinates, in direction
order. -/
def neighbors (c : Coord) : List Coord := (List.finRange 6).map (addDir c)

theorem dirOffset_injective : Function.Injective dirOffset := by decide

theorem neighbors_nodup (c : Coord) : (neighbors c).Nodup := by
  refine List.Nodup.map ?_ (List.nodup_finRange 6)
  intro a b h
  apply dirOffset_injective
  have h1 := congrArg Prod.fst h
  have h2 := congrArg Prod.snd h
  simp only [addDir] at h1 h2
  exact Prod.ext (by omega) (by omega)

theorem mem_neighbors {c n : Coord} : n ∈ neighbors c ↔ ∃ d : Dir, n = addDir c d := by
  simp [neighbors, eq_comm]

end Hex

namespace Bfs

open Hex

/-- The `Visited` record of the BFS module: predecessor and BFS depth. -/
structure Visited where
  prev : Coord
  dist : Nat
deriving DecidableEq, Repr

/-- Association-list lookup, modelling `HashMap::get`. -/
def alookup : List (Coord × Visited) → Coord → Option Visited
  | [], _ => none
  | p :: t, c => if c = p.1 then some p.2 else alookup t c

/-- The mutable state of a `Traverser`: the visited map and the FIFO
traversal queue.  The `can_pass` / `is_dest` closures are passed explicitly
to each operation. -/
structure Traverser where
  visited : List (Coord × Visited)
  to_traverse : List Coord
deriving DecidableEq, Repr

/-- `Traverser::new`: seed the queue with `start` and the visited map with
`start ↦ { prev := start, dist := 0 }`. -/
def Traverser.new (start : Coord) : Traverser :=
  ⟨[(start, ⟨start, 0⟩)], [start]⟩

/-- One iteration of the `entry` match inside `find`'s neighbor loop:
insert `npos ↦ {prev := pos, dist := d}` and enqueue `npos`, but only if
`npos` is vacant. -/
def insertIfVacant (pos : Coord) (d : Nat) (npos : Coord) (s : Traverser) : Traverser :=
  match alookup s.visited npos with
  | some _ => s
  | none => ⟨(npos, ⟨pos, d⟩) :: s.visited, s.to_traverse ++ [npos]⟩

/-- The neighbor loop of `find`, generalized over the list of neighbors. -/
def expandList (pos : Coord) (d : Nat) : List Coord → Traverser → Traverser
  | [], s => s
  | n :: t, s => expandList pos d t (insertIfVacant pos d n s)

/-- Expansion of a passable popped coordinate `pos` whose incremented
distance is `d`: process all six neighbors in order. -/
def expand (pos : Coord) (d : Nat) (s : Traverser) : Traverser :=
  expandList pos d (neighbors pos) s

/-- One iteration of the `loop` in `Traverser::find`.  Returns `none` when
the `expect` on the visited-map lookup would panic; otherwise returns the
new state together with `some r` when this iteration makes `find` return
`r` (where `r = none` models queue exhaustion), or `none` when the loop
continues. -/
def loopStep (cp isd : Coord → Bool) (s : Traverser) : Option (Traverser × Option (Option Coord)) :=
  match s.to_traverse with
  | [] => some (s, some none)
  | pos :: rest =>
    let s0 : Traverser := ⟨s.visited, rest⟩
    match (if cp pos then (alookup s.visited pos).map (fun r => expand pos (r.dist + 1) s0)
           else some s0 : Option Traverser) with
    | none => none
    | some s1 => some (s1, if isd pos then some (some pos) else none)

/-- Outcome of running `find` with bounded fuel: fuel exhaustion, a panic of
the internal `expect`, or normal completion with `find`'s return value and
the updated state. -/
inductive FindRes where
  | nofuel : FindRes
  | panicked : FindRes
  | done (res : Option Coord) (s : Traverser) : FindRes
deriving DecidableEq, Repr

/-- `Traverser::find`, with explicit fuel bounding the number of loop
iterations. -/
def findFuel (cp isd : Coord → Bool) : Nat → Traverser → FindRes
  | 0, _ => .nofuel
  | n+1, s =>
    match loopStep cp isd s with
    | none => .panicked
    | some (s1, some r) => .done r s1
    | some (s1, none) => findFuel cp isd n s1

/-- `Traverser::backtrace`: the recorded predecessor of `pos`, if visited. -/
def backtrace (s : Traverser) (pos : Coord) : Option Coord :=
  (alookup s.visited pos).map Visited.prev

/-- Iterate `backtrace` a given number of times. -/
def backIter (s : Traverser) : Nat → Coord → Option Coord
  | 0, c => some c
  | n+1, c =>
    match backtrace s c with
    | none => none
    | some p => backIter s n p

/-- States reachable from `Traverser::new start` by iterations of the
`find` loop. -/
inductive Reach (cp isd : Coord → Bool) (start : Coord) : Traverser → Prop
  | init : Reach cp isd start (Traverser.new start)
  | step {s s1 e} : Reach cp isd start s → loopStep cp isd s = some (s1, e) →
      Reach cp isd start s1

/-- `PathFrom cp a c k`: a walk of `k` neighbor steps from `a` to `c` in
which every cell except possibly the final one satisfies `cp`. -/
inductive PathFrom (cp : Coord → Bool) : Coord → Coord → Nat → Prop
  | refl (c) : PathFrom cp c c 0
  | step {a b c k} : cp a = true → b ∈ neighbors a → PathFrom cp b c k →
      PathFrom cp a c (k + 1)

/-- Recorded BFS distance of a coordinate (`0` as a default for unvisited
coordinates; only used underneath visitedness hypotheses). -/
def distD (s : Traverser) (c : Coord) : Nat :=
  ((alookup s.visited c).map Visited.dist).getD 0

end Bfs

namespace Bfs

open Hex

theorem alookup_cons (k : Coord) (v : Visited) (t : List (Coord × Visited)) (c : Coord) :
    alookup ((k, v) :: t) c = if c = k then some v else alookup t c := rfl

theorem alookup_cons_ne {k c : Coord} (v : Visited) (t : List (Coord × Visited))
    (h : c ≠ k) : alookup ((k, v) :: t) c = alookup t c := by
  simp [alookup, h]

theorem alookup_none_iff {l : List (Coord × Visited)} {c : Coord} :
    alookup l c = none ↔ c ∉ l.map Prod.fst := by
  induction l with
  | nil => simp [alookup]
  | cons p t ih =>
    by_cases h : c = p.1 <;> simp [alookup, h, ih]

theorem alookup_isSome_of_mem_keys {l : List (Coord × Visited)} {c : Coord}
    (h : c ∈ l.map Prod.fst) : ∃ r, alookup l c = some r := by
  cases hl : alookup l c with
  | none => exact absurd (alookup_none_iff.mp hl) (by simp [h])
  | some r => exact ⟨r, rfl⟩

theorem mem_keys_of_alookup {l : List (Coord × Visited)} {c : Coord} {r : Visited}
    (h : alookup l c = some r) : c ∈ l.map Prod.fst := by
  by_contra hc
  rw [alookup_none_iff.mpr hc] at h
  exact Option.noConfusion h

theorem alookup_append_left {l₁ l₂ : List (Coord × Visited)} {c : Coord} {r : Visited}
    (h : alookup l₁ c = some r) : alookup (l₁ ++ l₂) c = some r := by
  induction l₁ with
  | nil => exact absurd h (by simp [alookup])
  | cons p t ih =>
    by_cases hc : c = p.1 <;> simp_all [alookup]

theorem alookup_append_right {l₁ l₂ : List (Coord × Visited)} {c : Coord}
    (h : alookup l₁ c = none) : alookup (l₁ ++ l₂) c = alookup l₂ c := by
  induction l₁ with
  | nil => rfl
  | cons p t ih =>
    by_cases hc : c = p.1 <;> simp_all [alookup]

theorem alookup_map_const (l : List Coord) (pos : Coord) (d : Nat) (c : Coord) :
    alookup (l.map (fun n => (n, (⟨pos, d⟩ : Visited)))) c
      = if c ∈ l then some ⟨pos, d⟩ else none := by
  induction l with
  | nil => simp [alookup]
  | cons n t ih =>
    by_cases hc : c = n <;> simp [alookup, hc, ih]

/-- The neighbors of `pos` that are vacant in `s`'s visited map: exactly the
coordinates that one `expand` of `pos` inserts and enqueues. -/
def fresh (s : Traverser) (pos : Coord) : List Coord :=
  (neighbors pos).filter (fun n => (alookup s.visited n).isNone)

theorem mem_fresh {s : Traverser} {pos c : Coord} :
    c ∈ fresh s pos ↔ c ∈ neighbors pos ∧ alookup s.visited c = none := by
  simp [fresh, List.mem_filter, Option.isNone_iff_eq_none]

theorem fresh_nodup (s : Traverser) (pos : Coord) : (fresh s pos).Nodup :=
  (neighbors_nodup pos).filter _

theorem expandList_eq (pos : Coord) (d : Nat) :
    ∀ (l : List Coord) (s : Traverser), l.Nodup →
      expandList pos d l s =
        ⟨((l.filter (fun n => (alookup s.visited n).isNone)).reverse.map
            (fun n => (n, ⟨pos, d⟩))) ++ s.visited,
          s.to_traverse ++ l.filter (fun n => (alookup s.visited n).isNone)⟩ := by
  intro l
  induction l with
  | nil => intro s _; simp [expandList]
  | cons n t ih =>
    intro s hnd
    rcases List.nodup_cons.mp hnd with ⟨hn, ht⟩
    rw [expandList]
    cases hv : alookup s.visited n with
    | some r =>
      have hins : insertIfVacant pos d n s = s := by simp [insertIfVacant, hv]
      rw [hins, ih s ht]
      simp [List.filter_cons, hv]
    | none =>
      have hins : insertIfVacant pos d n s =
          ⟨(n, ⟨pos, d⟩) :: s.visited, s.to_traverse ++ [n]⟩ := by
        simp [insertIfVacant, hv]
      rw [hins, ih _ ht]
      have hfil : List.filter
            (fun m => (alookup ((n, (⟨pos, d⟩ : Visited)) :: s.visited) m).isNone) t
          = List.filter (fun m => (alookup s.visited m).isNone) t := by
        refine List.filter_congr ?_
        intro m hm
        have hmn : m ≠ n := fun he => hn (he ▸ hm)
        rw [alookup_cons_ne _ _ hmn]
      rw [hfil]
      simp [List.filter_cons, hv, List.map_append]

theorem expand_eq (pos : Coord) (d : Nat) (s : Traverser) :
    expand pos d s =
      ⟨((fresh s pos).reverse.map (fun n => (n, ⟨pos, d⟩))) ++ s.visited,
        s.to_traverse ++ fresh s pos⟩ :=
  expandList_eq pos d (neighbors pos) s (neighbors_nodup pos)

theorem expand_queue (pos : Coord) (d : Nat) (s : Traverser) :
    (expand pos d s).to_traverse = s.to_traverse ++ fresh s pos := by
  rw [expand_eq]

theorem expand_lookup_old {s : Traverser} {c : Coord} {r : Visited}
    (h : alookup s.visited c = some r) (pos : Coord) (d : Nat) :
    alookup (expand pos d s).visited c = some r := by
  rw [expand_eq]
  show alookup (_ ++ s.visited) c = some r
  rw [alookup_append_right, h]
  rw [alookup_none_iff]
  intro hc
  simp only [List.map_map, List.map_reverse, List.mem_reverse] at hc
  have : c ∈ fresh s pos := by
    simpa using hc
  rw [(mem_fresh.mp this).2] at h
  exact Option.noConfusion h

theorem expand_lookup_new {s : Traverser} {pos c : Coord} (d : Nat)
    (h : c ∈ fresh s pos) :
    alookup (expand pos d s).visited c = some ⟨pos, d⟩ := by
  rw [expand_eq]
  show alookup (_ ++ s.visited) c = _
  have : alookup ((fresh s pos).reverse.map (fun n => (n, (⟨pos, d⟩ : Visited)))) c
      = some ⟨pos, d⟩ := by
    rw [alookup_map_const]
    simp [h]
  exact alookup_append_left this

theorem expand_lookup_inv {s : Traverser} {pos c : Coord} {d : Nat} {r : Visited}
    (h : alookup (expand pos d s).visited c = some r) :
    alookup s.visited c = some r ∨ (c ∈ fresh s pos ∧ r = ⟨pos, d⟩) := by
  by_cases hc : c ∈ fresh s pos
  · right
    refine ⟨hc, ?_⟩
    have := expand_lookup_new (s := s) d hc
    rw [this] at h
    exact (Option.some_inj.mp h).symm
  · left
    rw [expand_eq] at h
    have hnone : alookup ((fresh s pos).reverse.map
        (fun n => (n, (⟨pos, d⟩ : Visited)))) c = none := by
      rw [alookup_map_const]
      simp [hc]
    rw [alookup_append_right hnone] at h
    exact h

end Bfs

namespace Bfs

open Hex

theorem distD_eq {s : Traverser} {c : Coord} {r : Visited}
    (h : alookup s.visited c = some r) : distD s c = r.dist := by
  simp [distD, h]

theorem PathFrom.snoc {cp : Coord → Bool} {a b c : Coord} {k : Nat}
    (hp : PathFrom cp a b k) (hb : cp b = true) (hc : c ∈ neighbors b) :
    PathFrom cp a c (k + 1) := by
  induction hp with
  | refl => exact PathFrom.step hb hc (PathFrom.refl c)
  | step ha hn _ ih => exact PathFrom.step ha hn (ih hb hc)

/-- Single-step invariant bundle of the BFS loop.  `cp` is the `can_pass`
predicate and `start` the seeded origin. -/
structure Inv (cp : Coord → Bool) (start : Coord) (s : Traverser) : Prop where
  keysNodup : (s.visited.map Prod.fst).Nodup
  queueNodup : s.to_traverse.Nodup
  queueVisited : ∀ c ∈ s.to_traverse, ∃ r, alookup s.visited c = some r
  startRec : alookup s.visited start = some ⟨start, 0⟩
  sound : ∀ c r, alookup s.visited c = some r → PathFrom cp start c r.dist
  prevOk : ∀ c r, alookup s.visited c = some r → c ≠ start →
    ∃ r', alookup s.visited r.prev = some r' ∧ r'.dist + 1 = r.dist
  sorted : s.to_traverse.Pairwise (fun a b => distD s a ≤ distD s b)
  bounded : ∀ x ∈ s.to_traverse, ∀ hd ∈ s.to_traverse.head?, distD s x ≤ distD s hd + 1
  poppedLe : ∀ c rc, alookup s.visited c = some rc → c ∉ s.to_traverse →
    ∀ q rq, q ∈ s.to_traverse → alookup s.visited q = some rq → rc.dist ≤ rq.dist
  expanded : ∀ c rc, alookup s.visited c = some rc → c ∉ s.to_traverse → cp c = true →
    ∀ n ∈ neighbors c, ∃ rn, alookup s.visited n = some rn ∧ rn.dist ≤ rc.dist + 1
  minimal : ∀ c k, PathFrom cp start c k →
    (∃ r, alookup s.visited c = some r ∧ r.dist ≤ k) ∨
    (∃ q j rq, q ∈ s.to_traverse ∧ alookup s.visited q = some rq ∧ rq.dist ≤ j ∧ j ≤ k ∧
      PathFrom cp q c (k - j))

/-- Propagating a passable walk through the already-popped region: either
the walk's endpoint is visited within the distance budget, or the walk
crosses the current queue frontier. -/
theorem aux_min {cp : Coord → Bool} {u : Traverser}
    (hexp : ∀ c rc, alookup u.visited c = some rc → c ∉ u.to_traverse → cp c = true →
      ∀ n ∈ neighbors c, ∃ rn, alookup u.visited n = some rn ∧ rn.dist ≤ rc.dist + 1)
    {b c : Coord} {m : Nat} (hp : PathFrom cp b c m) :
    ∀ j rb, alookup u.visited b = some rb → rb.dist ≤ j →
    (∃ r, alookup u.visited c = some r ∧ r.dist ≤ j + m) ∨
    (∃ q j' rq, q ∈ u.to_traverse ∧ alookup u.visited q = some rq ∧ rq.dist ≤ j' ∧
      j' ≤ j + m ∧ PathFrom cp q c (j + m - j')) := by
  induction hp with
  | refl c =>
    intro j rb hb hle
    exact Or.inl ⟨rb, hb, by omega⟩
  | @step a b' c' m ha hn hp ih =>
    intro j rb hb hle
    by_cases hqmem : a ∈ u.to_traverse
    · exact Or.inr ⟨a, j, rb, hqmem, hb, hle, by omega,
        by rw [show j + (m + 1) - j = m + 1 by omega]; exact PathFrom.step ha hn hp⟩
    · obtain ⟨rn, hrn, hrnle⟩ := hexp a rb hb hqmem ha b' hn
      rcases ih (j + 1) rn hrn (by omega) with ⟨r, hr, hrle⟩ | ⟨q, j', rq, hq, hrq, h1, h2, h3⟩
      · exact Or.inl ⟨r, hr, by omega⟩
      · exact Or.inr ⟨q, j', rq, hq, hrq, h1, by omega,
          by rw [show j + (m + 1) - j' = j + 1 + m - j' by omega]; exact h3⟩

theorem inv_new (cp : Coord → Bool) (start : Coord) :
    Inv cp start (Traverser.new start) := by
  have hlook : ∀ c r, alookup (Traverser.new start).visited c = some r →
      c = start ∧ r = ⟨start, 0⟩ := by
    intro c r h
    simp only [Traverser.new, alookup] at h
    by_cases hc : c = start
    · simp [hc] at h
      exact ⟨hc, h.symm⟩
    · simp [hc] at h
  refine ⟨?_, ?_, ?_, ?_, ?_, ?_, ?_, ?_, ?_, ?_, ?_⟩
  · simp [Traverser.new]
  · simp [Traverser.new]
  · intro c hc
    simp only [Traverser.new, List.mem_singleton] at hc
    exact ⟨⟨start, 0⟩, by simp [Traverser.new, alookup, hc]⟩
  · simp [Traverser.new, alookup]
  · intro c r h
    obtain ⟨rfl, rfl⟩ := hlook c r h
    exact PathFrom.refl _
  · intro c r h hne
    exact absurd (hlook c r h).1 hne
  · simp [Traverser.new]
  · intro x hx hd hhd
    simp only [Traverser.new, List.mem_singleton] at hx
    simp only [Traverser.new, List.head?_cons, Option.mem_def, Option.some_inj] at hhd
    subst hx
    cases hhd
    exact Nat.le_succ _
  · intro c rc h hc
    obtain ⟨rfl, rfl⟩ := hlook c rc h
    exact absurd (by simp [Traverser.new]) hc
  · intro c rc h hc _
    obtain ⟨rfl, rfl⟩ := hlook c rc h
    exact absurd (by simp [Traverser.new]) hc
  · intro c k hp
    refine Or.inr ⟨start, 0, ⟨start, 0⟩, by simp [Traverser.new], by simp [Traverser.new, alookup],
      le_refl 0, Nat.zero_le k, ?_⟩
    rw [Nat.sub_zero]
    exact hp

theorem pairwise_of_forall_mem {α : Type _} {R : α → α → Prop} :
    ∀ {l : List α}, (∀ a ∈ l, ∀ b ∈ l, R a b) → l.Pairwise R := by
  intro l
  induction l with
  | nil => intro _; exact List.Pairwise.nil
  | cons a t ih =>
    intro h
    exact List.Pairwise.cons (fun b hb => h a (by simp) b (by simp [hb]))
      (ih (fun x hx y hy => h x (by simp [hx]) y (by simp [hy])))

theorem inv_pop {cp : Coord → Bool} {start : Coord} {s : Traverser} {pos : Coord}
    {rest : List Coord} (hI : Inv cp start s) (hq : s.to_traverse = pos :: rest)
    (hcp : cp pos = false) : Inv cp start ⟨s.visited, rest⟩ := by
  have hsrt : (pos :: rest).Pairwise (fun a b => distD s a ≤ distD s b) := hq ▸ hI.sorted
  obtain ⟨hposle, hsrest⟩ := List.pairwise_cons.mp hsrt
  have hmem : ∀ c ∈ rest, c ∈ s.to_traverse := by
    intro c hc; rw [hq]; exact List.mem_cons_of_mem _ hc
  refine ⟨hI.keysNodup, ?_, ?_, hI.startRec, hI.sound, hI.prevOk, ?_, ?_, ?_, ?_, ?_⟩
  · exact List.Nodup.of_cons (hq ▸ hI.queueNodup)
  · intro c hc
    exact hI.queueVisited c (hmem c hc)
  · exact hsrest
  · intro x hx hd hhd
    have hx' := hmem x hx
    have hdm : hd ∈ rest := List.mem_of_mem_head? hhd
    have h1 := hI.bounded x hx' pos (by rw [hq]; rfl)
    have h2 := hposle hd hdm
    show distD s x ≤ distD s hd + 1
    omega
  · intro c rc hlk hc q rq hqm hrq
    by_cases hcpos : c = pos
    · subst hcpos
      have hlk' : alookup s.visited c = some rc := hlk
      have hrq' : alookup s.visited q = some rq := hrq
      have : distD s c ≤ distD s q := hposle q hqm
      rw [distD_eq hlk', distD_eq hrq'] at this
      exact this
    · have hcq : c ∉ s.to_traverse := by
        rw [hq]
        intro hmem'
        rcases List.mem_cons.mp hmem' with h | h
        · exact hcpos h
        · exact hc h
      exact hI.poppedLe c rc hlk hcq q rq (hmem q hqm) hrq
  · intro c rc hlk hc hcpc n hn
    by_cases hcpos : c = pos
    · subst hcpos
      exact absurd hcpc (by rw [hcp]; exact Bool.false_ne_true)
    · have hcq : c ∉ s.to_traverse := by
        rw [hq]
        intro hmem'
        rcases List.mem_cons.mp hmem' with h | h
        · exact hcpos h
        · exact hc h
      exact hI.expanded c rc hlk hcq hcpc n hn
  · intro c k hp
    rcases hI.minimal c k hp with ⟨r, h1, h2⟩ | ⟨q, j, rq₂, hq2, hl2, hd2, hjk, hpf⟩
    · exact Or.inl ⟨r, h1, h2⟩
    · rw [hq] at hq2
      rcases List.mem_cons.mp hq2 with rfl | hqr
      · generalize hm : k - j = m at hpf
        cases hpf with
        | refl =>
          exact Or.inl ⟨rq₂, hl2, le_trans hd2 hjk⟩
        | step hcq _ _ =>
          exact absurd hcq (by rw [hcp]; exact Bool.false_ne_true)
      · exact Or.inr ⟨q, j, rq₂, hqr, hl2, hd2, hjk, hpf⟩

theorem inv_expand {cp : Coord → Bool} {start : Coord} {s : Traverser} {pos : Coord}
    {rest : List Coord} {rq : Visited}
    (hI : Inv cp start s) (hq : s.to_traverse = pos :: rest) (hcp : cp pos = true)
    (hr : alookup s.visited pos = some rq) :
    Inv cp start (expand pos (rq.dist + 1) ⟨s.visited, rest⟩) := by
  set s0 : Traverser := ⟨s.visited, rest⟩ with hs0def
  set s1 : Traverser := expand pos (rq.dist + 1) s0 with hs1def
  set F : List Coord := fresh s0 pos with hFdef
  have hQ1 : s1.to_traverse = rest ++ F := expand_queue pos (rq.dist + 1) s0
  have hold : ∀ {c : Coord} {r : Visited}, alookup s.visited c = some r →
      alookup s1.visited c = some r := by
    intro c r h
    exact expand_lookup_old (s := s0) h pos (rq.dist + 1)
  have hnewF : ∀ c ∈ F, alookup s1.visited c = some ⟨pos, rq.dist + 1⟩ := by
    intro c h
    exact expand_lookup_new (s := s0) (rq.dist + 1) h
  have hFprop : ∀ c ∈ F, c ∈ neighbors pos ∧ alookup s.visited c = none := by
    intro c h
    exact (mem_fresh (s := s0)).mp h
  have hinv : ∀ {c : Coord} {r : Visited}, alookup s1.visited c = some r →
      alookup s.visited c = some r ∨ (c ∈ F ∧ r = ⟨pos, rq.dist + 1⟩) := by
    intro c r h
    exact expand_lookup_inv (s := s0) h
  have hsrt : (pos :: rest).Pairwise (fun a b => distD s a ≤ distD s b) := hq ▸ hI.sorted
  obtain ⟨hposle, hsrest⟩ := List.pairwise_cons.mp hsrt
  have hmemr : ∀ c ∈ rest, c ∈ s.to_traverse := by
    intro c hc; rw [hq]; exact List.mem_cons_of_mem _ hc
  have hbnd : ∀ x ∈ s.to_traverse, distD s x ≤ rq.dist + 1 := by
    intro x hx
    have h1 := hI.bounded x hx pos (by rw [hq]; rfl)
    rw [distD_eq hr] at h1
    exact h1
  have hds1 : ∀ {c : Coord} {r : Visited}, alookup s.visited c = some r →
      distD s1 c = distD s c := by
    intro c r h
    rw [distD_eq (hold h), distD_eq h]
  have hdr : ∀ c ∈ rest, distD s1 c = distD s c := by
    intro c hc
    obtain ⟨r, hl⟩ := hI.queueVisited c (hmemr c hc)
    exact hds1 hl
  have hdF : ∀ c ∈ F, distD s1 c = rq.dist + 1 := by
    intro c hc
    rw [distD_eq (hnewF c hc)]
  have hFnotvis : ∀ c ∈ F, alookup s.visited c = none := fun c hc => (hFprop c hc).2
  -- every neighbor of pos has an s1 record with distance at most rq.dist + 1
  have hnb : ∀ n ∈ neighbors pos, ∃ rn, alookup s1.visited n = some rn ∧
      rn.dist ≤ rq.dist + 1 := by
    intro n hn
    cases hln : alookup s.visited n with
    | none =>
      have hnF : n ∈ F := mem_fresh.mpr ⟨hn, hln⟩
      exact ⟨⟨pos, rq.dist + 1⟩, hnewF n hnF, le_refl _⟩
    | some rn =>
      refine ⟨rn, hold hln, ?_⟩
      by_cases hmem : n ∈ s.to_traverse
      · have := hbnd n hmem
        rw [distD_eq hln] at this
        exact this
      · exact le_trans (hI.poppedLe n rn hln hmem pos rq (by rw [hq]; exact List.mem_cons_self _ _) hr)
          (Nat.le_succ _)
  -- the expanded-closure invariant for the new state, needed by aux_min
  have hexp1 : ∀ c rc, alookup s1.visited c = some rc → c ∉ s1.to_traverse → cp c = true →
      ∀ n ∈ neighbors c, ∃ rn, alookup s1.visited n = some rn ∧ rn.dist ≤ rc.dist + 1 := by
    intro c rc hlk hc hcpc n hn
    rw [hQ1] at hc
    rcases hinv hlk with hlkold | ⟨hcF, rfl⟩
    · by_cases hcpos : c = pos
      · subst hcpos
        have : rc = rq := by
          rw [hr] at hlkold; exact (Option.some_inj.mp hlkold).symm
        subst this
        exact hnb n hn
      · have hcq : c ∉ s.to_traverse := by
          rw [hq]
          intro hmem'
          rcases List.mem_cons.mp hmem' with h | h
          · exact hcpos h
          · exact hc (List.mem_append_left _ h)
        obtain ⟨rn, hrn, hle⟩ := hI.expanded c rc hlkold hcq hcpc n hn
        exact ⟨rn, hold hrn, hle⟩
    · exact absurd (List.mem_append_right _ hcF) hc
  refine ⟨?_, ?_, ?_, hold hI.startRec, ?_, ?_, ?_, ?_, ?_, hexp1, ?_⟩
  · -- keysNodup
    rw [hs1def, expand_eq]
    show ((F.reverse.map (fun n => (n, (⟨pos, rq.dist + 1⟩ : Visited)))) ++ s.visited).map
      Prod.fst |>.Nodup
    have hmapfst : ∀ (l : List Coord),
        (l.map (fun n => (n, (⟨pos, rq.dist + 1⟩ : Visited)))).map Prod.fst = l := by
      intro l
      induction l with
      | nil => rfl
      | cons a t ih => simp [ih]
    rw [List.map_append, hmapfst]
    refine List.Nodup.append (List.nodup_reverse.mpr (fresh_nodup s0 pos)) hI.keysNodup ?_
    intro a haF hak
    rw [List.mem_reverse] at haF
    exact absurd (alookup_none_iff.mp (hFnotvis a haF)) (by simp [hak])
  · -- queueNodup
    rw [hQ1]
    refine List.Nodup.append (List.Nodup.of_cons (hq ▸ hI.queueNodup)) (fresh_nodup s0 pos) ?_
    intro a har haF
    obtain ⟨r, hl⟩ := hI.queueVisited a (hmemr a har)
    rw [hFnotvis a haF] at hl
    exact Option.noConfusion hl
  · -- queueVisited
    intro c hc
    rw [hQ1] at hc
    rcases List.mem_append.mp hc with h | h
    · obtain ⟨r, hl⟩ := hI.queueVisited c (hmemr c h)
      exact ⟨r, hold hl⟩
    · exact ⟨⟨pos, rq.dist + 1⟩, hnewF c h⟩
  · -- sound
    intro c r hlk
    rcases hinv hlk with h | ⟨hcF, rfl⟩
    · exact hI.sound c r h
    · exact PathFrom.snoc (hI.sound pos rq hr) hcp (hFprop c hcF).1
  · -- prevOk
    intro c r hlk hne
    rcases hinv hlk with h | ⟨hcF, rfl⟩
    · obtain ⟨r', hl', he'⟩ := hI.prevOk c r h hne
      exact ⟨r', hold hl', he'⟩
    · exact ⟨rq, hold hr, rfl⟩
  · -- sorted
    rw [hQ1]
    rw [List.pairwise_append]
    refine ⟨?_, ?_, ?_⟩
    · refine List.Pairwise.imp_of_mem ?_ hsrest
      intro a b ha hb hab
      rw [hdr a ha, hdr b hb]
      exact hab
    · refine pairwise_of_forall_mem ?_
      intro a ha b hb
      rw [hdF a ha, hdF b hb]
    · intro a ha b hb
      rw [hdr a ha, hdF b hb]
      have := hbnd a (hmemr a ha)
      omega
  · -- bounded
    intro x hx hd hhd
    rw [hQ1] at hx hhd
    cases hrest : rest with
    | nil =>
      subst hrest
      simp only [List.nil_append] at hx hhd
      have hdm : hd ∈ F := List.mem_of_mem_head? hhd
      rw [hdF x hx, hdF hd hdm]
      omega
    | cons h t =>
      subst hrest
      have hhd' : hd = h := by
        simp only [List.cons_append, List.head?_cons, Option.mem_def, Option.some_inj] at hhd
        exact hhd.symm
      subst hhd'
      have hposh : distD s pos ≤ distD s hd := hposle hd (by simp)
      rw [hdr hd (by simp)]
      rcases List.mem_append.mp hx with hxr | hxF
      · rw [hdr x hxr]
        have h1 := hbnd x (hmemr x hxr)
        have h2 : rq.dist = distD s pos := (distD_eq hr).symm
        omega
      · rw [hdF x hxF]
        have h2 : rq.dist = distD s pos := (distD_eq hr).symm
        omega
  · -- poppedLe
    intro c rc hlk hc q qr hqm hrq
    rw [hQ1] at hc hqm
    rcases hinv hlk with hlkold | ⟨hcF, rfl⟩
    · have hqd : qr.dist = distD s1 q := (distD_eq hrq).symm
      by_cases hcpos : c = pos
      · subst hcpos
        have hrcq : rc = rq := by
          rw [hr] at hlkold; exact (Option.some_inj.mp hlkold).symm
        subst hrcq
        rcases List.mem_append.mp hqm with hqr | hqF
        · have := hposle q hqr
          rw [distD_eq hr] at this
          rw [hdr q hqr] at hqd
          omega
        · rw [hdF q hqF] at hqd
          omega
      · have hcq : c ∉ s.to_traverse := by
          rw [hq]
          intro hmem'
          rcases List.mem_cons.mp hmem' with h | h
          · exact hcpos h
          · exact hc (List.mem_append_left _ h)
        rcases List.mem_append.mp hqm with hqr | hqF
        · obtain ⟨r0, hl0⟩ := hI.queueVisited q (hmemr q hqr)
          have : qr = r0 := by
            rw [hold hl0] at hrq
            exact (Option.some_inj.mp hrq).symm
          subst this
          exact hI.poppedLe c rc hlkold hcq q qr (hmemr q hqr) hl0
        · have h1 := hI.poppedLe c rc hlkold hcq pos rq
            (by rw [hq]; exact List.mem_cons_self _ _) hr
          rw [hdF q hqF] at hqd
          omega
    · exact absurd (List.mem_append_right _ hcF) hc
  · -- minimal
    intro c k hp
    rcases hI.minimal c k hp with ⟨r, h1, h2⟩ | ⟨q, j, rq₂, hq2, hl2, hd2, hjk, hpf⟩
    · exact Or.inl ⟨r, hold h1, h2⟩
    · rw [hq] at hq2
      rcases List.mem_cons.mp hq2 with rfl | hqr
      · -- the frontier witness is the popped coordinate itself
        have hrq2 : rq₂ = rq := by
          rw [hr] at hl2
          exact (Option.some_inj.mp hl2).symm
        subst hrq2
        generalize hm : k - j = m at hpf
        cases hpf with
        | refl =>
          exact Or.inl ⟨rq₂, hold hr, le_trans hd2 hjk⟩
        | @step a b' c' m' hcq hn hp' =>
          -- b' is a neighbor of the popped coordinate; find its s1 record
          obtain ⟨rb, hrb, hrble⟩ := hnb b' hn
          have hrble' : rb.dist ≤ j + 1 := by omega
          have hksplit : j + 1 + m' = k := by omega
          rcases aux_min hexp1 hp' (j + 1) rb hrb hrble'
            with ⟨r0, hr0, hle0⟩ | ⟨q', j', rq', hq', hlq', h1', h2', h3'⟩
          · exact Or.inl ⟨r0, hr0, by omega⟩
          · refine Or.inr ⟨q', j', rq', hq', hlq', h1', by omega, ?_⟩
            rw [show k - j' = j + 1 + m' - j' by omega]
            exact h3'
      · refine Or.inr ⟨q, j, rq₂, ?_, hold hl2, hd2, hjk, hpf⟩
        rw [hQ1]
        exact List.mem_append_left _ hqr

theorem loopStep_nil {cp isd : Coord → Bool} {s : Traverser} (h : s.to_traverse = []) :
    loopStep cp isd s = some (s, some none) := by
  unfold loopStep
  rw [h]

theorem loopStep_cons_pass {cp isd : Coord → Bool} {s : Traverser} {pos : Coord}
    {rest : List Coord} {rq : Visited} (h : s.to_traverse = pos :: rest)
    (hcp : cp pos = true) (hr : alookup s.visited pos = some rq) :
    loopStep cp isd s = some (expand pos (rq.dist + 1) ⟨s.visited, rest⟩,
      if isd pos then some (some pos) else none) := by
  unfold loopStep
  rw [h]
  simp [hcp, hr]

theorem loopStep_cons_pass_panic {cp isd : Coord → Bool} {s : Traverser} {pos : Coord}
    {rest : List Coord} (h : s.to_traverse = pos :: rest)
    (hcp : cp pos = true) (hr : alookup s.visited pos = none) :
    loopStep cp isd s = none := by
  unfold loopStep
  rw [h]
  simp [hcp, hr]

theorem loopStep_cons_nopass {cp isd : Coord → Bool} {s : Traverser} {pos : Coord}
    {rest : List Coord} (h : s.to_traverse = pos :: rest) (hcp : cp pos = false) :
    loopStep cp isd s = some (⟨s.visited, rest⟩,
      if isd pos then some (some pos) else none) := by
  unfold loopStep
  rw [h]
  simp [hcp]

theorem inv_step {cp isd : Coord → Bool} {start : Coord} {s s1 : Traverser}
    {e : Option (Option Coord)} (hI : Inv cp start s)
    (hstep : loopStep cp isd s = some (s1, e)) : Inv cp start s1 := by
  cases hq : s.to_traverse with
  | nil =>
    rw [loopStep_nil hq] at hstep
    obtain ⟨rfl, rfl⟩ := Prod.ext_iff.mp (Option.some_inj.mp hstep)
    exact hI
  | cons pos rest =>
    cases hcp : cp pos with
    | true =>
      cases hlp : alookup s.visited pos with
      | none =>
        rw [loopStep_cons_pass_panic hq hcp hlp] at hstep
        exact Option.noConfusion hstep
      | some rq =>
        rw [loopStep_cons_pass hq hcp hlp] at hstep
        obtain ⟨rfl, rfl⟩ := Prod.ext_iff.mp (Option.some_inj.mp hstep)
        exact inv_expand hI hq hcp hlp
    | false =>
      rw [loopStep_cons_nopass hq hcp] at hstep
      obtain ⟨rfl, rfl⟩ := Prod.ext_iff.mp (Option.some_inj.mp hstep)
      exact inv_pop hI hq hcp

theorem reach_inv {cp isd : Coord → Bool} {start : Coord} {s : Traverser}
    (h : Reach cp isd start s) : Inv cp start s := by
  induction h with
  | init => exact inv_new cp start
  | step _ hstep ih => exact inv_step ih hstep

theorem loopStep_mono {cp isd : Coord → Bool} {s s1 : Traverser} {e : Option (Option Coord)}
    {c : Coord} {r : Visited} (hstep : loopStep cp isd s = some (s1, e))
    (h : alookup s.visited c = some r) : alookup s1.visited c = some r := by
  cases hq : s.to_traverse with
  | nil =>
    rw [loopStep_nil hq] at hstep
    obtain ⟨rfl, rfl⟩ := Prod.ext_iff.mp (Option.some_inj.mp hstep)
    exact h
  | cons pos rest =>
    cases hcp : cp pos with
    | true =>
      cases hlp : alookup s.visited pos with
      | none =>
        rw [loopStep_cons_pass_panic hq hcp hlp] at hstep
        exact Option.noConfusion hstep
      | some rq =>
        rw [loopStep_cons_pass hq hcp hlp] at hstep
        obtain ⟨rfl, rfl⟩ := Prod.ext_iff.mp (Option.some_inj.mp hstep)
        exact expand_lookup_old (s := ⟨s.visited, rest⟩) h pos (rq.dist + 1)
    | false =>
      rw [loopStep_cons_nopass hq hcp] at hstep
      obtain ⟨rfl, rfl⟩ := Prod.ext_iff.mp (Option.some_inj.mp hstep)
      exact h

theorem findFuel_mono {cp isd : Coord → Bool} :
    ∀ {n : Nat} {s : Traverser} {r : Option Coord} {s' : Traverser} {c : Coord} {rc : Visited},
      findFuel cp isd n s = .done r s' → alookup s.visited c = some rc →
      alookup s'.visited c = some rc := by
  intro n
  induction n with
  | zero =>
    intro s r s' c rc h _
    exact absurd h (by simp [findFuel])
  | succ n ih =>
    intro s r s' c rc h hc
    rw [findFuel] at h
    cases hls : loopStep cp isd s with
    | none => rw [hls] at h; exact absurd h (by simp)
    | some p =>
      obtain ⟨s1, e⟩ := p
      rw [hls] at h
      cases e with
      | some r' =>
        simp only [FindRes.done.injEq] at h
        obtain ⟨rfl, rfl⟩ := h
        exact loopStep_mono hls hc
      | none => exact ih h (loopStep_mono hls hc)

theorem findFuel_done_reach {cp isd : Coord → Bool} {start : Coord} :
    ∀ {n : Nat} {s : Traverser} {r : Option Coord} {s' : Traverser},
      Reach cp isd start s → findFuel cp isd n s = .done r s' →
      Reach cp isd start s' := by
  intro n
  induction n with
  | zero =>
    intro s r s' _ h
    exact absurd h (by simp [findFuel])
  | succ n ih =>
    intro s r s' hR h
    rw [findFuel] at h
    cases hls : loopStep cp isd s with
    | none => rw [hls] at h; exact absurd h (by simp)
    | some p =>
      obtain ⟨s1, e⟩ := p
      rw [hls] at h
      cases e with
      | some r' =>
        simp only [FindRes.done.injEq] at h
        obtain ⟨rfl, rfl⟩ := h
        exact Reach.step hR hls
      | none => exact ih (Reach.step hR hls) h

theorem expand_distD_old {s : Traverser} {c : Coord} {r : Visited}
    (h : alookup s.visited c = some r) (pos : Coord) (d : Nat) :
    distD (expand pos d s) c = distD s c := by
  rw [distD_eq (expand_lookup_old h pos d), distD_eq h]

theorem expand_distD_new {s : Traverser} {pos c : Coord} (d : Nat) (h : c ∈ fresh s pos) :
    distD (expand pos d s) c = d :=
  distD_eq (expand_lookup_new d h)

theorem loopStep_ne_none {cp isd : Coord → Bool} {start : Coord} {s : Traverser}
    (hI : Inv cp start s) : loopStep cp isd s ≠ none := by
  cases hq : s.to_traverse with
  | nil =>
    rw [loopStep_nil hq]
    simp
  | cons pos rest =>
    cases hcp : cp pos with
    | true =>
      obtain ⟨rq, hrq⟩ := hI.queueVisited pos (by rw [hq]; exact List.mem_cons_self _ _)
      rw [loopStep_cons_pass hq hcp hrq]
      simp
    | false =>
      rw [loopStep_cons_nopass hq hcp]
      simp

theorem find_mono_aux {cp isd : Coord → Bool} {start : Coord} :
    ∀ {n : Nat} {s : Traverser} {c : Coord} {s' : Traverser} {D : Nat},
      Inv cp start s → (∀ q ∈ s.to_traverse, D ≤ distD s q) →
      findFuel cp isd n s = .done (some c) s' →
      ∃ rc, alookup s'.visited c = some rc ∧ D ≤ rc.dist ∧
        ∀ q ∈ s'.to_traverse, rc.dist ≤ distD s' q := by
  intro n
  induction n with
  | zero =>
    intro s c s' D _ _ h
    exact absurd h (by simp [findFuel])
  | succ n ih =>
    intro s c s' D hI hD h
    cases hq : s.to_traverse with
    | nil =>
      rw [findFuel, loopStep_nil hq] at h
      simp only [FindRes.done.injEq] at h
      exact absurd h.1 (by simp)
    | cons pos rest =>
      obtain ⟨rq, hrq⟩ := hI.queueVisited pos (by rw [hq]; exact List.mem_cons_self _ _)
      have hDpos : D ≤ rq.dist := by
        have h0 := hD pos (by rw [hq]; exact List.mem_cons_self _ _)
        rw [distD_eq hrq] at h0
        exact h0
      obtain ⟨hposle, hsrest⟩ := List.pairwise_cons.mp (hq ▸ hI.sorted)
      cases hcp : cp pos with
      | true =>
        rw [findFuel, loopStep_cons_pass hq hcp hrq] at h
        by_cases hisd : isd pos = true
        · rw [if_pos hisd] at h
          simp only [FindRes.done.injEq] at h
          obtain ⟨hc', rfl⟩ := h
          obtain rfl := Option.some_inj.mp hc'
          refine ⟨rq, expand_lookup_old (s := ⟨s.visited, rest⟩) hrq pos (rq.dist + 1),
            hDpos, ?_⟩
          intro q hqm
          rw [expand_queue] at hqm
          rcases List.mem_append.mp hqm with hqr | hqF
          · obtain ⟨r0, hl0⟩ := hI.queueVisited q (by rw [hq]; exact List.mem_cons_of_mem _ hqr)
            rw [expand_distD_old (s := ⟨s.visited, rest⟩) hl0 pos (rq.dist + 1)]
            show rq.dist ≤ distD s q
            have h2 := hposle q hqr
            rw [distD_eq hrq] at h2
            exact h2
          · rw [expand_distD_new (s := ⟨s.visited, rest⟩) (rq.dist + 1) hqF]
            omega
        · rw [if_neg hisd] at h
          refine ih (inv_expand hI hq hcp hrq) ?_ h
          intro q hqm
          rw [expand_queue] at hqm
          rcases List.mem_append.mp hqm with hqr | hqF
          · obtain ⟨r0, hl0⟩ := hI.queueVisited q (by rw [hq]; exact List.mem_cons_of_mem _ hqr)
            rw [expand_distD_old (s := ⟨s.visited, rest⟩) hl0 pos (rq.dist + 1)]
            show D ≤ distD s q
            exact hD q (by rw [hq]; exact List.mem_cons_of_mem _ hqr)
          · rw [expand_distD_new (s := ⟨s.visited, rest⟩) (rq.dist + 1) hqF]
            omega
      | false =>
        rw [findFuel, loopStep_cons_nopass hq hcp] at h
        by_cases hisd : isd pos = true
        · rw [if_pos hisd] at h
          simp only [FindRes.done.injEq] at h
          obtain ⟨hc', rfl⟩ := h
          obtain rfl := Option.some_inj.mp hc'
          refine ⟨rq, hrq, hDpos, ?_⟩
          intro q hqm
          show rq.dist ≤ distD s q
          have h2 := hposle q hqm
          rw [distD_eq hrq] at h2
          exact h2
        · rw [if_neg hisd] at h
          refine ih (inv_pop hI hq hcp) ?_ h
          intro q hqm
          show D ≤ distD s q
          exact hD q (by rw [hq]; exact List.mem_cons_of_mem _ hqm)

/-- C1: for every coordinate `c` that the Traverser's search has reached
(i.e. `c` carries a `VisitRecord` in a reachable state), the recorded
`dist` is the least number of steps of any walk from `start` to `c` whose
cells all satisfy `can_pass` (the endpoint itself excepted). -/
theorem bfs_recorded_dist_isLeast {cp isd : Coord → Bool} {start : Coord} {s : Traverser}
    {c : Coord} {r : Visited} (hR : Reach cp isd start s)
    (hc : alookup s.visited c = some r) :
    IsLeast {k : Nat | PathFrom cp start c k} r.dist := by
  have hI := reach_inv hR
  constructor
  · exact hI.sound c r hc
  · intro k hk
    rcases hI.minimal c k hk with ⟨r', h1, h2⟩ | ⟨q, j, rqq, hqm, hql, hdj, hjk, hpf⟩
    · rw [hc] at h1
      obtain rfl := Option.some_inj.mp h1
      exact h2
    · by_cases hcq : c ∈ s.to_traverse
      · generalize hm : k - j = m at hpf
        cases hpf with
        | refl =>
          rw [hc] at hql
          obtain rfl := Option.some_inj.mp hql
          show r.dist ≤ k
          omega
        | @step a b c' m' hcpq hnb hp' =>
          cases hqueue : s.to_traverse with
          | nil =>
            rw [hqueue] at hcq
            exact absurd hcq (by simp)
          | cons hh tt =>
            have hb := hI.bounded c hcq hh (by rw [hqueue]; rfl)
            obtain ⟨hhle, _⟩ := List.pairwise_cons.mp (hqueue ▸ hI.sorted)
            have hhq : distD s hh ≤ distD s q := by
              rw [hqueue] at hqm
              rcases List.mem_cons.mp hqm with rfl | hq2
              · exact le_refl _
              · exact hhle q hq2
            rw [distD_eq hc] at hb
            rw [distD_eq hql] at hhq
            omega
      · have := hI.poppedLe c r hc hcq q rqq hqm hql
        omega

theorem bfs_recorded_dist_isLeast_witness :
    IsLeast {k : Nat | PathFrom (fun _ => true) ((0, 0) : Coord) ((0, 0) : Coord) k} 0 :=
  bfs_recorded_dist_isLeast
    (Reach.init : Reach (fun _ => true) (fun _ => true) ((0, 0) : Coord)
      (Traverser.new ((0, 0) : Coord)))
    (by decide : alookup (Traverser.new ((0, 0) : Coord)).visited (0, 0) =
      some ⟨(0, 0), 0⟩)

/-- C4: successive successful `find()` calls return coordinates whose
recorded BFS distances are non-decreasing. -/
theorem find_nondecreasing {cp isd : Coord → Bool} {start : Coord}
    {s s1 s2 : Traverser} {c1 c2 : Coord} {n m : Nat}
    (hR : Reach cp isd start s)
    (h1 : findFuel cp isd n s = .done (some c1) s1)
    (h2 : findFuel cp isd m s1 = .done (some c2) s2) :
    ∃ r1 r2, alookup s2.visited c1 = some r1 ∧ alookup s2.visited c2 = some r2 ∧
      r1.dist ≤ r2.dist := by
  obtain ⟨r1, hl1, _, hb1⟩ := find_mono_aux (reach_inv hR) (fun q _ => Nat.zero_le _) h1
  have hR1 : Reach cp isd start s1 := findFuel_done_reach hR h1
  obtain ⟨r2, hl2, hD2, _⟩ := find_mono_aux (reach_inv hR1) hb1 h2
  exact ⟨r1, r2, findFuel_mono h2 hl1, hl2, hD2⟩

/-- First destination state of the concrete open-grid run used as a
sanity witness. -/
def bfsW1 : Traverser :=
  ⟨[((0, 1), ⟨(0, 0), 1⟩), ((-1, 1), ⟨(0, 0), 1⟩), ((-1, 0), ⟨(0, 0), 1⟩),
    ((0, -1), ⟨(0, 0), 1⟩), ((1, -1), ⟨(0, 0), 1⟩), ((1, 0), ⟨(0, 0), 1⟩),
    ((0, 0), ⟨(0, 0), 0⟩)],
   [(1, 0), (1, -1), (0, -1), (-1, 0), (-1, 1), (0, 1)]⟩

/-- Second destination state of the concrete open-grid run used as a
sanity witness. -/
def bfsW2 : Traverser :=
  ⟨[((1, 1), ⟨(1, 0), 2⟩), ((2, -1), ⟨(1, 0), 2⟩), ((2, 0), ⟨(1, 0), 2⟩),
    ((0, 1), ⟨(0, 0), 1⟩), ((-1, 1), ⟨(0, 0), 1⟩), ((-1, 0), ⟨(0, 0), 1⟩),
    ((0, -1), ⟨(0, 0), 1⟩), ((1, -1), ⟨(0, 0), 1⟩), ((1, 0), ⟨(0, 0), 1⟩),
    ((0, 0), ⟨(0, 0), 0⟩)],
   [(1, -1), (0, -1), (-1, 0), (-1, 1), (0, 1), (2, 0), (2, -1), (1, 1)]⟩

theorem find_nondecreasing_witness :
    ∃ r1 r2, alookup bfsW2.visited (0, 0) = some r1 ∧
      alookup bfsW2.visited (1, 0) = some r2 ∧ r1.dist ≤ r2.dist :=
  find_nondecreasing
    (Reach.init : Reach (fun _ => true) (fun _ => true) ((0, 0) : Coord)
      (Traverser.new ((0, 0) : Coord)))
    (by decide : findFuel (fun _ => true) (fun _ => true) 1
      (Traverser.new ((0, 0) : Coord)) = .done (some (0, 0)) bfsW1)
    (by decide : findFuel (fun _ => true) (fun _ => true) 1 bfsW1 =
      .done (some (1, 0)) bfsW2)

/-- C5: a popped coordinate is returned by `find` exactly when `is_dest`
holds for it, independently of `can_pass`; its neighbors are expanded
exactly when `can_pass` holds, so an impassable destination is reported
but contributes no new visited records or queue entries. -/
theorem find_pop_dest_expand {cp isd : Coord → Bool} {start : Coord} {s : Traverser}
    {pos : Coord} {rest : List Coord} (hR : Reach cp isd start s)
    (hq : s.to_traverse = pos :: rest) :
    ∃ s1, loopStep cp isd s = some (s1, if isd pos then some (some pos) else none) ∧
      (cp pos = false → s1 = ⟨s.visited, rest⟩) ∧
      (cp pos = true →
        s1.to_traverse = rest ++ fresh s pos ∧
        (∀ c r, alookup s.visited c = some r → alookup s1.visited c = some r) ∧
        (∀ c ∈ fresh s pos, alookup s1.visited c = some ⟨pos, distD s pos + 1⟩)) := by
  cases hcp : cp pos with
  | false =>
    exact ⟨⟨s.visited, rest⟩, loopStep_cons_nopass hq hcp, fun _ => rfl,
      fun hc => Bool.noConfusion hc⟩
  | true =>
    obtain ⟨rq, hrq⟩ := (reach_inv hR).queueVisited pos
      (by rw [hq]; exact List.mem_cons_self _ _)
    refine ⟨expand pos (rq.dist + 1) ⟨s.visited, rest⟩, loopStep_cons_pass hq hcp hrq,
      fun hfalse => Bool.noConfusion hfalse, fun _ => ⟨?_, ?_, ?_⟩⟩
    · rw [expand_queue]
      rfl
    · intro c r h
      exact expand_lookup_old (s := ⟨s.visited, rest⟩) h pos (rq.dist + 1)
    · intro c hcF
      rw [distD_eq hrq]
      exact expand_lookup_new (s := ⟨s.visited, rest⟩) (rq.dist + 1) hcF

theorem find_pop_dest_expand_witness :
    ∃ s1, loopStep (fun _ => true) (fun _ => true) (Traverser.new ((0, 0) : Coord)) =
        some (s1, if (fun (_ : Coord) => true) (0, 0) then some (some ((0, 0) : Coord))
                  else none) ∧
      ((fun (_ : Coord) => true) (0, 0) = false →
        s1 = ⟨(Traverser.new ((0, 0) : Coord)).visited, []⟩) ∧
      ((fun (_ : Coord) => true) (0, 0) = true →
        s1.to_traverse = [] ++ fresh (Traverser.new ((0, 0) : Coord)) (0, 0) ∧
        (∀ c r, alookup (Traverser.new ((0, 0) : Coord)).visited c = some r →
          alookup s1.visited c = some r) ∧
        (∀ c ∈ fresh (Traverser.new ((0, 0) : Coord)) (0, 0),
          alookup s1.visited c =
            some ⟨(0, 0), distD (Traverser.new ((0, 0) : Coord)) (0, 0) + 1⟩)) :=
  find_pop_dest_expand Reach.init rfl

/-- C6: one `find` loop iteration never changes an existing `VisitRecord`,
only enqueues coordinates that were previously unvisited, and keeps the
queue duplicate-free; hence a coordinate receives at most one record and
is enqueued at most once over the Traverser's lifetime. -/
theorem visit_record_unique {cp isd : Coord → Bool} {start : Coord} {s s1 : Traverser}
    {e : Option (Option Coord)} (hR : Reach cp isd start s)
    (hstep : loopStep cp isd s = some (s1, e)) :
    (∀ c r, alookup s.visited c = some r → alookup s1.visited c = some r) ∧
    (∀ c, c ∈ s1.to_traverse → c ∉ s.to_traverse → alookup s.visited c = none) ∧
    s1.to_traverse.Nodup := by
  refine ⟨fun c r h => loopStep_mono hstep h, ?_,
    (inv_step (reach_inv hR) hstep).queueNodup⟩
  intro c hc1 hc0
  cases hq : s.to_traverse with
  | nil =>
    rw [loopStep_nil hq] at hstep
    obtain ⟨rfl, rfl⟩ := Prod.ext_iff.mp (Option.some_inj.mp hstep)
    exact absurd hc1 hc0
  | cons pos rest =>
    cases hcp : cp pos with
    | true =>
      cases hlp : alookup s.visited pos with
      | none =>
        rw [loopStep_cons_pass_panic hq hcp hlp] at hstep
        exact Option.noConfusion hstep
      | some rq =>
        rw [loopStep_cons_pass hq hcp hlp] at hstep
        obtain ⟨rfl, rfl⟩ := Prod.ext_iff.mp (Option.some_inj.mp hstep)
        rw [expand_queue] at hc1
        rcases List.mem_append.mp hc1 with hcr | hcF
        · exact absurd (by rw [hq]; exact List.mem_cons_of_mem _ hcr) hc0
        · exact ((mem_fresh (s := ⟨s.visited, rest⟩)).mp hcF).2
    | false =>
      rw [loopStep_cons_nopass hq hcp] at hstep
      obtain ⟨rfl, rfl⟩ := Prod.ext_iff.mp (Option.some_inj.mp hstep)
      exact absurd (by rw [hq]; exact List.mem_cons_of_mem _ hc1) hc0

theorem visit_record_unique_witness :
    (∀ c r, alookup (Traverser.new ((0, 0) : Coord)).visited c = some r →
      alookup bfsW1.visited c = some r) ∧
    (∀ c, c ∈ bfsW1.to_traverse → c ∉ (Traverser.new ((0, 0) : Coord)).to_traverse →
      alookup (Traverser.new ((0, 0) : Coord)).visited c = none) ∧
    bfsW1.to_traverse.Nodup :=
  visit_record_unique
    (Reach.init : Reach (fun _ => true) (fun _ => true) ((0, 0) : Coord)
      (Traverser.new ((0, 0) : Coord)))
    (by decide : loopStep (fun _ => true) (fun _ => true)
      (Traverser.new ((0, 0) : Coord)) = some (bfsW1, some (some (0, 0))))

theorem backIter_start {cp : Coord → Bool} {start : Coord} {s : Traverser}
    (hI : Inv cp start s) :
    ∀ (k : Nat) (c : Coord) (r : Visited), alookup s.visited c = some r → r.dist = k →
      backIter s k c = some start := by
  intro k
  induction k with
  | zero =>
    intro c r hc hd
    have hcs : c = start := by
      by_contra hne
      obtain ⟨r', _, he⟩ := hI.prevOk c r hc hne
      omega
    rw [backIter, hcs]
  | succ k ih =>
    intro c r hc hd
    have hne : c ≠ start := by
      intro he
      subst he
      rw [hI.startRec] at hc
      obtain rfl := Option.some_inj.mp hc
      simp at hd
    obtain ⟨r', hl', he'⟩ := hI.prevOk c r hc hne
    rw [backIter]
    have hbt : backtrace s c = some r.prev := by simp [backtrace, hc]
    rw [hbt]
    exact ih r.prev r' hl' (by omega)

/-- C7: `backtrace` returns `none` exactly on unvisited coordinates,
returns `start` on `start`, and for any visited `c` iterating `backtrace`
exactly `dist c` times arrives at `start`. -/
theorem backtrace_spec {cp isd : Coord → Bool} {start : Coord} {s : Traverser}
    (hR : Reach cp isd start s) :
    (∀ c, backtrace s c = none ↔ alookup s.visited c = none) ∧
    backtrace s start = some start ∧
    (∀ c r, alookup s.visited c = some r → backIter s r.dist c = some start) := by
  have hI := reach_inv hR
  refine ⟨?_, ?_, ?_⟩
  · intro c
    simp [backtrace]
  · have := hI.startRec
    simp [backtrace, this]
  · intro c r hc
    exact backIter_start hI r.dist c r hc rfl

theorem backtrace_spec_witness :
    (∀ c, backtrace bfsW1 c = none ↔ alookup bfsW1.visited c = none) ∧
    backtrace bfsW1 (0, 0) = some (0, 0) ∧
    (∀ c r, alookup bfsW1.visited c = some r → backIter bfsW1 r.dist c = some (0, 0)) :=
  backtrace_spec
    (Reach.step
      (Reach.init : Reach (fun _ => true) (fun _ => true) ((0, 0) : Coord)
        (Traverser.new ((0, 0) : Coord)))
      (by decide : loopStep (fun _ => true) (fun _ => true)
        (Traverser.new ((0, 0) : Coord)) = some (bfsW1, some (some (0, 0)))))

/-- C9: starting from any reachable Traverser state, `find` can never hit
the `expect` panic: every coordinate on the queue was inserted into the
visited map before being enqueued (including `start` at construction), so
the visited-map lookup of a popped coordinate always succeeds. -/
theorem find_never_panics {cp isd : Coord → Bool} {start : Coord} {s : Traverser}
    (hR : Reach cp isd start s) (n : Nat) : findFuel cp isd n s ≠ .panicked := by
  induction n generalizing s with
  | zero => simp [findFuel]
  | succ n ih =>
    rw [findFuel]
    cases hls : loopStep cp isd s with
    | none => exact absurd hls (loopStep_ne_none (reach_inv hR))
    | some p =>
      obtain ⟨s1, e⟩ := p
      cases e with
      | some r => simp
      | none => exact ih (Reach.step hR hls)

theorem find_never_panics_witness :
    findFuel (fun _ => true) (fun _ => true) 2 (Traverser.new ((0, 0) : Coord)) ≠
      .panicked :=
  find_never_panics
    (Reach.init : Reach (fun _ => true) (fun _ => true) ((0, 0) : Coord)
      (Traverser.new ((0, 0) : Coord))) 2

end Bfs

namespace Los

open Hex

/-- Sequence an ordered list of child results of `los_rec`, concatenating
their emission lists; `none` as soon as one child ran out of fuel. -/
def seqOpt : List (Option (List (Coord × Int))) → Option (List (Coord × Int))
  | [] => some []
  | o :: os => o.bind (fun r => (seqOpt os).map (fun rs => r ++ rs))

/-- The neighbor-direction selection of `los::los_rec`, depending on the
direction just taken (`dir`), the previous one (`pdir`) and `mainDir`. -/
def losNeighbors (mainDir : Dir) : Option Dir → Option Dir → List Dir
  | some d, some pd => if d = pd then [d] else [d, pd]
  | some d, none => if mainDir = d then [d, rotL d, rotR d] else [d, mainDir]
  | _, _ => [mainDir, rotL mainDir, rotR mainDir]

/-- `los::los_rec` with explicit fuel: returns the ordered list of
`visible(pos, light)` invocations of one branch, or `none` when the fuel
bound is hit before the branch finishes. -/
def losRecFuel (opaq : Coord → Int) :
    Nat → Int → Coord → Dir → Dir → Option Dir → Option Dir →
      Option (List (Coord × Int))
  | 0, _, _, _, _, _, _ => none
  | n+1, light, pos, startDir, mainDir, dir, pdir =>
    if light ≤ opaq pos then some []
    else
      (seqOpt
        ((losNeighbors mainDir dir pdir).map
          (fun d =>
            match dir with
            | some _ =>
              losRecFuel opaq n (light - opaq pos) (addDir pos d) startDir d (some d) dir
            | none =>
              losRecFuel opaq n (light - opaq pos) (addDir pos d) startDir mainDir
                (some d) dir))).map
        (fun rs => (pos, light - opaq pos) :: rs)

end Los

namespace Los

open Hex

/-- C3 counterexample: with `opaqueness ≡ 1` and `light = 1` the recursion
enters the origin but never invokes `visible` (the claim asserts an
unconditional invocation), and with `opaqueness ≡ 2`, `light = 4` the
reported light value is the post-subtraction `2`, not the pre-subtraction
`4` the claim asserts. -/
theorem los_report_counterexample :
    losRecFuel (fun _ => 1) 3 1 ((0, 0) : Coord) 0 0 none none = some [] ∧
    losRecFuel (fun _ => 2) 2 4 ((0, 0) : Coord) 0 0 none none =
      some [(((0, 0) : Coord), (2 : Int))] ∧
    (2 : Int) ≠ 4 := by
  refine ⟨by decide, by decide, by decide⟩

/-- C3 (amended): in `los::los_rec` the `visible` callback is invoked for a
visited coordinate exactly when its opaqueness is strictly below the
remaining light, after the subtraction, and receives the post-subtraction
light value; when opaqueness meets or exceeds the remaining light the
branch terminates without reporting the coordinate. -/
theorem los_report_after_subtraction {opaq : Coord → Int} {n : Nat} {light : Int}
    {pos : Coord} {sd md : Dir} {dir pdir : Option Dir} {l : List (Coord × Int)}
    (h : losRecFuel opaq (n + 1) light pos sd md dir pdir = some l) :
    (light ≤ opaq pos → l = []) ∧
    (opaq pos < light → ∃ t, l = (pos, light - opaq pos) :: t) := by
  constructor
  · intro hle
    rw [losRecFuel, if_pos hle] at h
    exact (Option.some_inj.mp h).symm
  · intro hlt
    rw [losRecFuel, if_neg (by omega)] at h
    rcases Option.map_eq_some'.mp h with ⟨rs, _, hfeq⟩
    exact ⟨rs, hfeq.symm⟩

theorem los_report_after_subtraction_witness :
    ((2 : Int) ≤ (fun _ => (1 : Int)) ((0, 0) : Coord) →
      ([(((0, 0) : Coord), (1 : Int))] : List (Coord × Int)) = []) ∧
    ((fun _ => (1 : Int)) ((0, 0) : Coord) < 2 →
      ∃ t, ([(((0, 0) : Coord), (1 : Int))] : List (Coord × Int)) =
        ((0, 0), 2 - (fun _ => (1 : Int)) ((0, 0) : Coord)) :: t) :=
  los_report_after_subtraction
    (by decide : losRecFuel (fun _ => 1) 2 2 ((0, 0) : Coord) 0 0 none none =
      some [(((0, 0) : Coord), (1 : Int))])

theorem losRec_zero_chain : ∀ (n : Nat) (pos : Coord),
    losRecFuel (fun _ => 0) n 1 pos 0 0 (some 0) (some 0) = none := by
  intro n
  induction n with
  | zero => intro pos; rfl
  | succ n ih =>
    intro pos
    rw [losRecFuel]
    rw [if_neg (by norm_num)]
    rw [show losNeighbors 0 (some 0) (some 0) = [0] by decide]
    show (seqOpt [losRecFuel (fun _ => 0) n ((1 : Int) - 0) (addDir pos 0) 0 0
      (some 0) (some 0)]).map _ = none
    rw [show (1 : Int) - 0 = 1 by norm_num, ih]
    rfl

theorem losRec_zero_level1 : ∀ (n : Nat) (pos : Coord),
    losRecFuel (fun _ => 0) n 1 pos 0 0 (some 0) none = none := by
  intro n pos
  cases n with
  | zero => rfl
  | succ n =>
    rw [losRecFuel]
    rw [if_neg (by norm_num)]
    rw [show losNeighbors 0 (some 0) none = [0, rotL 0, rotR 0] by decide]
    have hhead : losRecFuel (fun _ => 0) n ((1 : Int) - 0) (addDir pos 0) 0 0
        (some 0) (some 0) = none := by
      rw [show (1 : Int) - 0 = 1 by norm_num]
      exact losRec_zero_chain n (addDir pos 0)
    show (seqOpt (losRecFuel (fun _ => 0) n ((1 : Int) - 0) (addDir pos 0) 0 0
        (some 0) (some 0) :: _)).map _ = none
    rw [hhead]
    rfl

theorem losRec_zero_top : ∀ (n : Nat),
    losRecFuel (fun _ => 0) n 1 ((0, 0) : Coord) 0 0 none none = none := by
  intro n
  cases n with
  | zero => rfl
  | succ n =>
    rw [losRecFuel]
    rw [if_neg (by norm_num)]
    rw [show losNeighbors 0 none none = [0, rotL 0, rotR 0] by decide]
    have hhead : losRecFuel (fun _ => 0) n ((1 : Int) - 0) (addDir (0, 0) 0) 0 0
        (some 0) none = none := by
      rw [show (1 : Int) - 0 = 1 by norm_num]
      exact losRec_zero_level1 n (addDir (0, 0) 0)
    show (seqOpt (losRecFuel (fun _ => 0) n ((1 : Int) - 0) (addDir (0, 0) 0) 0 0
        (some 0) none :: _)).map _ = none
    rw [hhead]
    rfl

/-- The recursive call of `los_rec` for one neighbor direction `d`:
`main_dir` is replaced by `d` when a direction had already been taken. -/
def losChild (opaq : Coord → Int) (n : Nat) (light1 : Int) (pos : Coord)
    (sd md : Dir) (dir : Option Dir) (d : Dir) : Option (List (Coord × Int)) :=
  match dir with
  | some _ => losRecFuel opaq n light1 (addDir pos d) sd d (some d) dir
  | none => losRecFuel opaq n light1 (addDir pos d) sd md (some d) dir

theorem losRecFuel_succ (opaq : Coord → Int) (n : Nat) (light : Int) (pos : Coord)
    (sd md : Dir) (dir pdir : Option Dir) (h : ¬ light ≤ opaq pos) :
    losRecFuel opaq (n + 1) light pos sd md dir pdir =
      (seqOpt ((losNeighbors md dir pdir).map
        (losChild opaq n (light - opaq pos) pos sd md dir))).map
        (fun rs => (pos, light - opaq pos) :: rs) := by
  rw [losRecFuel, if_neg h]
  congr 3
  funext d
  cases dir <;> rfl

theorem seqOpt_isSome {os : List (Option (List (Coord × Int)))}
    (h : ∀ o ∈ os, o.isSome) : (seqOpt os).isSome := by
  induction os with
  | nil => rfl
  | cons o os ih =>
    rw [seqOpt]
    obtain ⟨r, hr⟩ := Option.isSome_iff_exists.mp (h o (by simp))
    rw [hr]
    obtain ⟨rs, hrs⟩ := Option.isSome_iff_exists.mp
      (ih (fun o' ho' => h o' (by simp [ho'])))
    simp [hrs]

theorem losRecFuel_isSome_of_pos {opaq : Coord → Int} (Hop : ∀ c, 1 ≤ opaq c) :
    ∀ (n : Nat) (light : Int) (pos : Coord) (sd md : Dir) (dir pdir : Option Dir),
      light ≤ (n : Int) → (losRecFuel opaq (n + 1) light pos sd md dir pdir).isSome := by
  intro n
  induction n with
  | zero =>
    intro light pos sd md dir pdir hle
    have h1 := Hop pos
    rw [losRecFuel, if_pos (by push_cast at hle; omega)]
    rfl
  | succ n ih =>
    intro light pos sd md dir pdir hle
    by_cases hl : light ≤ opaq pos
    · rw [losRecFuel, if_pos hl]
      rfl
    · rw [losRecFuel_succ opaq (n + 1) light pos sd md dir pdir hl]
      have hlight1 : light - opaq pos ≤ (n : Int) := by
        have h1 := Hop pos
        push_cast at hle ⊢
        omega
      have hall : ∀ o ∈ (losNeighbors md dir pdir).map
          (losChild opaq (n + 1) (light - opaq pos) pos sd md dir), o.isSome := by
        intro o ho
        rw [List.mem_map] at ho
        obtain ⟨d, _, rfl⟩ := ho
        show (losChild opaq (n + 1) (light - opaq pos) pos sd md dir d).isSome
        cases dir with
        | some d0 =>
          exact ih (light - opaq pos) (addDir pos d) sd d (some d) (some d0) hlight1
        | none => exact ih (light - opaq pos) (addDir pos d) sd md (some d) none hlight1
      obtain ⟨rs, hrs⟩ := Option.isSome_iff_exists.mp (seqOpt_isSome hall)
      rw [hrs]
      rfl

end Los

namespace Los

open Hex

/-- C2 counterexample: with `opaqueness` returning 0 everywhere and
`light = 1 > 0`, the per-direction sweep of the angle-recursive variant
does not terminate: no fuel bound suffices, the recursion is infinite. -/
theorem los_zero_opaque_diverges :
    ¬ ∃ n : Nat, (losRecFuel (fun _ => 0) n 1 ((0, 0) : Coord) 0 0 none none).isSome := by
  rintro ⟨n, hn⟩
  rw [losRec_zero_top n] at hn
  exact Bool.noConfusion hn

end Los

namespace Los2

open Hex

/-- `los2::los_check_line`, with the `line_to_with_edge_detection`
collaborator passed explicitly as `lineTo`.  Accumulates opaqueness sums
along the two candidate interpolated lines (suspending a line once its sum
saturates at `light`) and combines the outcomes exactly as the source's
final `match`. -/
def losCheckLine (opaq : Coord → Int) (lineTo : Coord → Coord → List (Coord × Coord))
    (light : Int) (start pos : Coord) (dir : Dir) : Bool × Int :=
  let r := (lineTo start pos).foldl
    (fun (st : (Int × Coord) × (Int × Coord)) (cc : Coord × Coord) =>
      (if st.1.1 < light then (st.1.1 + opaq cc.1, cc.1) else st.1,
       if st.2.1 < light then (st.2.1 + opaq cc.2, cc.2) else st.2))
    ((0, start), (0, start))
  match decide (r.1.2 = pos), decide (r.2.2 = pos) with
  | true, true => (true, light - min r.1.1 r.2.1)
  | true, false => (true, light - r.1.1)
  | false, true => (true, light - r.2.1)
  | false, false => (false, light - light)

/-- `los2::los_rec` with explicit fuel: `dcw` is the `direction_to_cw`
collaborator.  Returns the ordered `visible` invocations of one flood call
together with the final visited set (as an insertion list), or `none` when
the fuel bound is hit. -/
def losRec2Fuel (opaq : Coord → Int) (lineTo : Coord → Coord → List (Coord × Coord))
    (dcw : Coord → Coord → Option Dir) :
    Nat → Int → Coord → Coord → Dir → List Coord →
      Option (List (Coord × Int) × List Coord)
  | 0, _, _, _, _, _ => none
  | n+1, light, start, pos, dir, visited =>
    if pos ∈ visited then some ([], visited)
    else if (losCheckLine opaq lineTo light start pos dir).1 then
      match losRec2Fuel opaq lineTo dcw n light start (addDir pos dir) dir
          (pos :: visited) with
      | none => none
      | some (o1, v1) =>
        match losRec2Fuel opaq lineTo dcw n light start (addDir pos (rotL dir)) dir v1 with
        | none => none
        | some (o2, v2) =>
          match losRec2Fuel opaq lineTo dcw n light start (addDir pos (rotR dir)) dir
              v2 with
          | none => none
          | some (o3, v3) =>
            some ((pos, (losCheckLine opaq lineTo light start pos dir).2) ::
              (o1 ++ o2 ++ o3), v3)
    else
      some ((if (losCheckLine opaq lineTo light start
               (addDir pos (rotL ((dcw start pos).getD dir))) dir).1 then
               [(pos, (losCheckLine opaq lineTo light start
                 (addDir pos (rotL ((dcw start pos).getD dir))) dir).2)]
             else []) ++
            (if (losCheckLine opaq lineTo light start
               (addDir pos (rotR ((dcw start pos).getD dir))) dir).1 then
               [(pos, (losCheckLine opaq lineTo light start
                 (addDir pos (rotR ((dcw start pos).getD dir))) dir).2)]
             else []),
            pos :: visited)

end Los2

namespace Los2

open Hex

/-- Number of cells of `cells` that the single-line accumulation of
`los_check_line` processes before its running sum saturates at `light`:
the length of the longest prefix all of whose proper prefix sums of
`opaq` stay below `light`. -/
def freeLen (opaq : Coord → Int) : Int → List Coord → Nat
  | _, [] => 0
  | light, c :: cs => if 0 < light then freeLen opaq (light - opaq c) cs + 1 else 0

/-- Opaqueness sum accumulated along one candidate line before
saturation. -/
def specSum (opaq : Coord → Int) (light : Int) (cells : List Coord) : Int :=
  ((cells.take (freeLen opaq light cells)).map opaq).sum

/-- The last cell the accumulation walk of one candidate line updates to
(`start`, i.e. `l0`, if it never updates). -/
def specLast (opaq : Coord → Int) (light : Int) (l0 : Coord) (cells : List Coord) : Coord :=
  ((cells.take (freeLen opaq light cells)).getLast?).getD l0

/-- One candidate line's accumulation loop of `los_check_line`. -/
def lineAcc (opaq : Coord → Int) (light : Int) : List Coord → Int × Coord → Int × Coord
  | [], st => st
  | c :: cs, st => lineAcc opaq light cs (if st.1 < light then (st.1 + opaq c, c) else st)

theorem lineAcc_sat (opaq : Coord → Int) (light : Int) :
    ∀ (cells : List Coord) (st : Int × Coord), ¬ st.1 < light →
      lineAcc opaq light cells st = st := by
  intro cells
  induction cells with
  | nil => intro st _; rfl
  | cons c cs ih =>
    intro st h
    rw [lineAcc, if_neg h]
    exact ih st h

theorem lineAcc_shift (opaq : Coord → Int) (light : Int) :
    ∀ (cells : List Coord) (s0 : Int) (l0 : Coord) (x : Int),
      lineAcc opaq light cells (s0 + x, l0) =
        (fun p : Int × Coord => (p.1 + x, p.2)) (lineAcc opaq (light - x) cells (s0, l0)) := by
  intro cells
  induction cells with
  | nil => intro s0 l0 x; rfl
  | cons c cs ih =>
    intro s0 l0 x
    rw [lineAcc, lineAcc]
    by_cases h : s0 < light - x
    · rw [if_pos (show (s0 + x, l0).1 < light by simp; omega), if_pos (show (s0, l0).1 < light - x from h)]
      show lineAcc opaq light cs (s0 + x + opaq c, c) =
        (fun p : Int × Coord => (p.1 + x, p.2)) (lineAcc opaq (light - x) cs (s0 + opaq c, c))
      rw [show s0 + x + opaq c = s0 + opaq c + x by ring]
      exact ih (s0 + opaq c) c x
    · rw [if_neg (show ¬ (s0 + x, l0).1 < light by simp; omega), if_neg (show ¬ (s0, l0).1 < light - x from h)]
      exact ih s0 l0 x

theorem getLast_getD_cons {α : Type _} (a : α) (l : List α) (d : α) :
    ((a :: l).getLast?).getD d = (l.getLast?).getD a := by
  cases l with
  | nil => rfl
  | cons b t => rw [List.getLast?_cons_cons]; rfl

theorem lineAcc_spec (opaq : Coord → Int) :
    ∀ (cells : List Coord) (light : Int) (l0 : Coord),
      lineAcc opaq light cells (0, l0) =
        (specSum opaq light cells, specLast opaq light l0 cells) := by
  intro cells
  induction cells with
  | nil => intro light l0; simp [lineAcc, specSum, specLast, freeLen]
  | cons c cs ih =>
    intro light l0
    by_cases h : 0 < light
    · rw [lineAcc, if_pos (by simpa using h)]
      have : lineAcc opaq light cs (0 + opaq c, c) =
          (fun p : Int × Coord => (p.1 + opaq c, p.2))
            (lineAcc opaq (light - opaq c) cs (0, c)) :=
        lineAcc_shift opaq light cs 0 c (opaq c)
      rw [show ((0 : Int) + opaq c, c) = ((0 : Int) + opaq c, c) from rfl] at this
      rw [this, ih (light - opaq c) c]
      have hfl : freeLen opaq light (c :: cs) = freeLen opaq (light - opaq c) cs + 1 := by
        rw [freeLen, if_pos h]
      simp only [specSum, specLast, hfl, List.take_succ_cons, List.map_cons, List.sum_cons]
      rw [Prod.mk.injEq]
      refine ⟨by omega, ?_⟩
      rw [getLast_getD_cons]
    · rw [lineAcc, if_neg (by simpa using h), lineAcc_sat opaq light cs (0, l0) (by simpa using h)]
      have hfl : freeLen opaq light (c :: cs) = 0 := by
        rw [freeLen, if_neg h]
      simp [specSum, specLast, hfl]

theorem pairFold_split (opaq : Coord → Int) (light : Int) :
    ∀ (l : List (Coord × Coord)) (a b : Int × Coord),
      l.foldl
        (fun (st : (Int × Coord) × (Int × Coord)) (cc : Coord × Coord) =>
          (if st.1.1 < light then (st.1.1 + opaq cc.1, cc.1) else st.1,
           if st.2.1 < light then (st.2.1 + opaq cc.2, cc.2) else st.2))
        (a, b) =
      (lineAcc opaq light (l.map Prod.fst) a, lineAcc opaq light (l.map Prod.snd) b) := by
  intro l
  induction l with
  | nil => intro a b; rfl
  | cons cc t ih =>
    intro a b
    rw [List.foldl_cons, List.map_cons, List.map_cons, lineAcc, lineAcc]
    exact ih _ _

/-- Characterization of `los_check_line` against the prefix-sum
description: its Boolean is true exactly when one of the two candidate
lines' accumulation walk ends at `pos`, and its light component follows
the four-way case split of the claim. -/
theorem losCheckLine_eq_spec (opaq : Coord → Int)
    (lineTo : Coord → Coord → List (Coord × Coord)) (light : Int)
    (start pos : Coord) (dir : Dir) :
    losCheckLine opaq lineTo light start pos dir =
      (decide (specLast opaq light start ((lineTo start pos).map Prod.fst) = pos) ||
       decide (specLast opaq light start ((lineTo start pos).map Prod.snd) = pos),
       light -
         (if specLast opaq light start ((lineTo start pos).map Prod.fst) = pos ∧
             specLast opaq light start ((lineTo start pos).map Prod.snd) = pos then
            min (specSum opaq light ((lineTo start pos).map Prod.fst))
              (specSum opaq light ((lineTo start pos).map Prod.snd))
          else if specLast opaq light start ((lineTo start pos).map Prod.fst) = pos then
            specSum opaq light ((lineTo start pos).map Prod.fst)
          else if specLast opaq light start ((lineTo start pos).map Prod.snd) = pos then
            specSum opaq light ((lineTo start pos).map Prod.snd)
          else light)) := by
  rw [losCheckLine]
  show (match decide _, decide _ with
    | true, true => _ | true, false => _ | false, true => _ | false, false => _) = _
  rw [pairFold_split opaq light (lineTo start pos) (0, start) (0, start)]
  rw [lineAcc_spec opaq ((lineTo start pos).map Prod.fst) light start]
  rw [lineAcc_spec opaq ((lineTo start pos).map Prod.snd) light start]
  by_cases h1 : specLast opaq light start ((lineTo start pos).map Prod.fst) = pos <;>
    by_cases h2 : specLast opaq light start ((lineTo start pos).map Prod.snd) = pos <;>
      simp [h1, h2]

/-- C8: `los_check_line` returns `(directly_visible, remaining_light)`
where `directly_visible` is true iff at least one of the two candidate
interpolated lines' accumulation walks (which suspend once their running
opaqueness sum saturates at `light`) ends at `pos`, and `remaining_light`
is `light` minus the smaller of the two sums when both reach `pos`, minus
the one sum when exactly one reaches it, and `light - light` when neither
does. -/
theorem los_check_line_spec (opaq : Coord → Int)
    (lineTo : Coord → Coord → List (Coord × Coord)) (light : Int)
    (start pos : Coord) (dir : Dir) :
    losCheckLine opaq lineTo light start pos dir =
      (decide (specLast opaq light start ((lineTo start pos).map Prod.fst) = pos) ||
       decide (specLast opaq light start ((lineTo start pos).map Prod.snd) = pos),
       light -
         (if specLast opaq light start ((lineTo start pos).map Prod.fst) = pos ∧
             specLast opaq light start ((lineTo start pos).map Prod.snd) = pos then
            min (specSum opaq light ((lineTo start pos).map Prod.fst))
              (specSum opaq light ((lineTo start pos).map Prod.snd))
          else if specLast opaq light start ((lineTo start pos).map Prod.fst) = pos then
            specSum opaq light ((lineTo start pos).map Prod.fst)
          else if specLast opaq light start ((lineTo start pos).map Prod.snd) = pos then
            specSum opaq light ((lineTo start pos).map Prod.snd)
          else light)) :=
  losCheckLine_eq_spec opaq lineTo light start pos dir

/-- C10: when a coordinate fails its own direct-line check and both of its
diagonal-neighbor fallback checks succeed, the `visible` callback is
invoked twice for that same coordinate, once per succeeding neighbor, each
time with that neighbor's remaining light. -/
theorem los2_double_report {opaq : Coord → Int}
    {lineTo : Coord → Coord → List (Coord × Coord)} {dcw : Coord → Coord → Option Dir}
    {n : Nat} {light : Int} {start pos : Coord} {dir : Dir} {visited : List Coord}
    {lL lR : Int}
    (hv : pos ∉ visited)
    (hfail : (losCheckLine opaq lineTo light start pos dir).1 = false)
    (hL : losCheckLine opaq lineTo light start
      (addDir pos (rotL ((dcw start pos).getD dir))) dir = (true, lL))
    (hR : losCheckLine opaq lineTo light start
      (addDir pos (rotR ((dcw start pos).getD dir))) dir = (true, lR)) :
    losRec2Fuel opaq lineTo dcw (n + 1) light start pos dir visited =
      some ([(pos, lL), (pos, lR)], pos :: visited) := by
  rw [losRec2Fuel, if_neg hv, if_neg (by rw [hfail]; exact Bool.false_ne_true)]
  rw [hL, hR]
  simp

/-- The line collaborator of the concrete double-report scenario: the
interpolated line towards `(5, 5)` is empty (so the direct check fails),
while any other target's line consists of the target itself. -/
def lineW : Coord → Coord → List (Coord × Coord) :=
  fun _ p => if p = ((5, 5) : Coord) then [] else [(p, p)]

theorem los2_double_report_witness :
    losRec2Fuel (fun _ => 1) lineW (fun _ _ => none) 1 5 ((0, 0) : Coord)
        ((5, 5) : Coord) 0 [] =
      some ([(((5, 5) : Coord), (4 : Int)), ((5, 5), 4)], [((5, 5) : Coord)]) :=
  los2_double_report (by decide) (by decide) (by decide) (by decide)

end Los2

namespace Los2

open Hex

/-- `c` lies within the axis-aligned box of radius `r` around `s`. -/
def inBox (s c : Coord) (r : Int) : Prop := |c.1 - s.1| ≤ r ∧ |c.2 - s.2| ≤ r

/-- The box of radius `r` around `s`, as a finite set. -/
def box (s : Coord) (r : Int) : Finset Coord :=
  Finset.Icc (s.1 - r, s.2 - r) (s.1 + r, s.2 + r)

theorem mem_box {s c : Coord} {r : Int} : c ∈ box s r ↔ inBox s c r := by
  simp only [box, inBox, Finset.mem_Icc, Prod.le_def, abs_le]
  omega

theorem inBox_mono {s c : Coord} {r r' : Int} (h : inBox s c r) (hr : r ≤ r') :
    inBox s c r' :=
  ⟨le_trans h.1 hr, le_trans h.2 hr⟩

theorem inBox_self (s : Coord) {r : Int} (hr : 0 ≤ r) : inBox s s r := by
  constructor <;> simp [hr]

theorem inBox_addDir {s c : Coord} {r : Int} (h : inBox s c r) (d : Dir) :
    inBox s (addDir c d) (r + 1) := by
  obtain ⟨h1, h2⟩ := h
  have hd1 : |(dirOffset d).1| ≤ 1 := by fin_cases d <;> decide
  have hd2 : |(dirOffset d).2| ≤ 1 := by fin_cases d <;> decide
  rw [abs_le] at h1 h2 hd1 hd2
  constructor
  · show |c.1 + (dirOffset d).1 - s.1| ≤ r + 1
    rw [abs_le]
    omega
  · show |c.2 + (dirOffset d).2 - s.2| ≤ r + 1
    rw [abs_le]
    omega

theorem freeLen_nonpos (opaq : Coord → Int) {light : Int} (h : light ≤ 0) :
    ∀ cells : List Coord, freeLen opaq light cells = 0 := by
  intro cells
  cases cells with
  | nil => rfl
  | cons c cs => rw [freeLen, if_neg (by omega)]

theorem freeLen_le_length (opaq : Coord → Int) :
    ∀ (cells : List Coord) (light : Int), freeLen opaq light cells ≤ cells.length := by
  intro cells
  induction cells with
  | nil => intro light; simp [freeLen]
  | cons c cs ih =>
    intro light
    rw [freeLen]
    by_cases h : 0 < light
    · rw [if_pos h]
      have := ih (light - opaq c)
      simp only [List.length_cons]
      omega
    · rw [if_neg h]
      simp

theorem freeLen_le_light {opaq : Coord → Int} (Hop : ∀ c, 1 ≤ opaq c) :
    ∀ (cells : List Coord) (light : Int), 0 ≤ light →
      (freeLen opaq light cells : Int) ≤ light := by
  intro cells
  induction cells with
  | nil => intro light h; simpa [freeLen] using h
  | cons c cs ih =>
    intro light h
    rw [freeLen]
    by_cases h0 : 0 < light
    · rw [if_pos h0]
      have hc := Hop c
      by_cases h1 : 0 ≤ light - opaq c
      · have := ih (light - opaq c) h1
        push_cast
        omega
      · rw [freeLen_nonpos opaq (by omega) cs]
        push_cast
        omega
    · rw [if_neg h0]
      simpa using h

theorem getLast_getD_take {α : Type _} :
    ∀ (l : List α) (m : Nat) (hm : m < l.length) (d : α),
      ((l.take (m + 1)).getLast?).getD d = l.get ⟨m, hm⟩ := by
  intro l
  induction l with
  | nil => intro m hm; simp at hm
  | cons a t ih =>
    intro m hm d
    cases m with
    | zero => simp
    | succ m =>
      rw [List.take_succ_cons, getLast_getD_cons, ih m (by simpa using hm) a]
      rfl

/-- A candidate line whose accumulation walk ends at `p` keeps `p` within
the box of radius `light - 1` around `start`, provided opaqueness is at
least 1 everywhere and the line's `i`-th cell lies within radius `i`. -/
theorem reach_inBox {opaq : Coord → Int} (Hop : ∀ c, 1 ≤ opaq c) {light : Int}
    (hlight : 0 < light) {cells : List Coord} {start p : Coord}
    (Hc : ∀ i (h : i < cells.length), inBox start (cells.get ⟨i, h⟩) (i : Int))
    (hreach : specLast opaq light start cells = p) :
    inBox start p (light - 1) := by
  cases hm : freeLen opaq light cells with
  | zero =>
    rw [specLast, hm] at hreach
    simp at hreach
    subst hreach
    exact inBox_self start (by omega)
  | succ m' =>
    have hmlen : m' + 1 ≤ cells.length := hm ▸ freeLen_le_length opaq cells light
    rw [specLast, hm, getLast_getD_take cells m' (by omega) start] at hreach
    subst hreach
    have hb := Hc m' (by omega)
    have hfl := freeLen_le_light Hop cells light (le_of_lt hlight)
    rw [hm] at hfl
    push_cast at hfl
    exact inBox_mono hb (by omega)

/-- A coordinate that `los_check_line` judges directly visible lies within
the box of radius `light - 1` around `start`. -/
theorem visible_inBox {opaq : Coord → Int}
    {lineTo : Coord → Coord → List (Coord × Coord)} (Hop : ∀ c, 1 ≤ opaq c)
    (HL : ∀ s p, ∀ i (h : i < (lineTo s p).length),
      inBox s (((lineTo s p).get ⟨i, h⟩).1) i ∧ inBox s (((lineTo s p).get ⟨i, h⟩).2) i)
    {light : Int} (hlight : 0 < light) {start pos : Coord} {dir : Dir}
    (hvis : (losCheckLine opaq lineTo light start pos dir).1 = true) :
    inBox start pos (light - 1) := by
  rw [losCheckLine_eq_spec] at hvis
  simp only [Bool.or_eq_true, decide_eq_true_eq] at hvis
  rcases hvis with h | h
  · refine reach_inBox Hop hlight ?_ h
    intro i hi
    rw [List.length_map] at hi
    have := (HL start pos i hi).1
    simpa [List.get_map] using this
  · refine reach_inBox Hop hlight ?_ h
    intro i hi
    rw [List.length_map] at hi
    have := (HL start pos i hi).2
    simpa [List.get_map] using this

theorem losRec2_suffix {opaq : Coord → Int}
    {lineTo : Coord → Coord → List (Coord × Coord)} {dcw : Coord → Coord → Option Dir} :
    ∀ (n : Nat) (light : Int) (start pos : Coord) (dir : Dir) (visited : List Coord)
      (o : List (Coord × Int)) (v' : List Coord),
      losRec2Fuel opaq lineTo dcw n light start pos dir visited = some (o, v') →
      visited <:+ v' := by
  intro n
  induction n with
  | zero =>
    intro light start pos dir visited o v' h
    exact absurd h (by simp [losRec2Fuel])
  | succ n ih =>
    intro light start pos dir visited o v' h
    rw [losRec2Fuel] at h
    by_cases hmem : pos ∈ visited
    · rw [if_pos hmem] at h
      obtain ⟨_, rfl⟩ := Prod.ext_iff.mp (Option.some_inj.mp h)
      exact List.suffix_refl _
    · rw [if_neg hmem] at h
      by_cases hchk : (losCheckLine opaq lineTo light start pos dir).1 = true
      · rw [if_pos hchk] at h
        cases h1 : losRec2Fuel opaq lineTo dcw n light start (addDir pos dir) dir
            (pos :: visited) with
        | none =>
          simp only [h1] at h
          exact Option.noConfusion h
        | some p1 =>
          obtain ⟨o1, v1⟩ := p1
          simp only [h1] at h
          cases h2 : losRec2Fuel opaq lineTo dcw n light start (addDir pos (rotL dir)) dir
              v1 with
          | none =>
            simp only [h2] at h
            exact Option.noConfusion h
          | some p2 =>
            obtain ⟨o2, v2⟩ := p2
            simp only [h2] at h
            cases h3 : losRec2Fuel opaq lineTo dcw n light start (addDir pos (rotR dir))
                dir v2 with
            | none =>
              simp only [h3] at h
              exact Option.noConfusion h
            | some p3 =>
              obtain ⟨o3, v3⟩ := p3
              simp only [h3] at h
              obtain ⟨_, rfl⟩ := Prod.ext_iff.mp (Option.some_inj.mp h)
              exact ((List.suffix_cons pos visited).trans
                (ih _ _ _ _ _ _ _ h1)).trans
                (((ih _ _ _ _ _ _ _ h2)).trans (ih _ _ _ _ _ _ _ h3))
      · rw [if_neg hchk] at h
        obtain ⟨_, rfl⟩ := Prod.ext_iff.mp (Option.some_inj.mp h)
        exact List.suffix_cons pos visited

theorem card_lt_of_insert {start : Coord} {light : Int} {visited : List Coord}
    {pos : Coord} (hbox : pos ∈ box start light) (hmem : pos ∉ visited) :
    ((box start light).filter (fun c => c ∉ pos :: visited)).card <
      ((box start light).filter (fun c => c ∉ visited)).card := by
  apply Finset.card_lt_card
  rw [Finset.ssubset_iff_of_subset]
  · exact ⟨pos, by simp [Finset.mem_filter, hbox, hmem]⟩
  · intro c hc
    rw [Finset.mem_filter] at hc ⊢
    refine ⟨hc.1, ?_⟩
    intro hcv
    exact hc.2 (by simp [hcv])

theorem card_le_of_suffix (start : Coord) (light : Int) {v v' : List Coord}
    (h : v <:+ v') :
    ((box start light).filter (fun c => c ∉ v')).card ≤
      ((box start light).filter (fun c => c ∉ v)).card := by
  apply Finset.card_le_card
  intro c hc
  rw [Finset.mem_filter] at hc ⊢
  exact ⟨hc.1, fun hm => hc.2 (h.subset hm)⟩

/-- Fuel-indexed termination of the hybrid flood: if `pos` is within the
light-radius box and the number of unvisited box cells is below the fuel,
the call completes. -/
theorem losRec2_isSome {opaq : Coord → Int}
    {lineTo : Coord → Coord → List (Coord × Coord)} {dcw : Coord → Coord → Option Dir}
    (Hop : ∀ c, 1 ≤ opaq c)
    (HL : ∀ s p, ∀ i (h : i < (lineTo s p).length),
      inBox s (((lineTo s p).get ⟨i, h⟩).1) i ∧ inBox s (((lineTo s p).get ⟨i, h⟩).2) i)
    {light : Int} (hlight : 0 < light) {start : Coord} {dir : Dir} :
    ∀ (n : Nat) (visited : List Coord) (pos : Coord), inBox start pos light →
      ((box start light).filter (fun c => c ∉ visited)).card < n →
      (losRec2Fuel opaq lineTo dcw n light start pos dir visited).isSome := by
  intro n
  induction n with
  | zero =>
    intro visited pos _ hcard
    omega
  | succ n ih =>
    intro visited pos hbox hcard
    rw [losRec2Fuel]
    by_cases hmem : pos ∈ visited
    · rw [if_pos hmem]
      rfl
    · rw [if_neg hmem]
      have hcard1 : ((box start light).filter (fun c => c ∉ pos :: visited)).card < n := by
        have := card_lt_of_insert (mem_box.mpr hbox) hmem
        omega
      by_cases hchk : (losCheckLine opaq lineTo light start pos dir).1 = true
      · rw [if_pos hchk]
        have hpos1 : inBox start pos (light - 1) := visible_inBox Hop HL hlight hchk
        have hnb : ∀ d : Dir, inBox start (addDir pos d) light := by
          intro d
          have := inBox_addDir hpos1 d
          simpa using this
        obtain ⟨p1, h1⟩ := Option.isSome_iff_exists.mp
          (ih (pos :: visited) (addDir pos dir) (hnb dir) hcard1)
        obtain ⟨o1, v1⟩ := p1
        have hs1 : (pos :: visited) <:+ v1 := losRec2_suffix _ _ _ _ _ _ _ _ h1
        have hcard2 : ((box start light).filter (fun c => c ∉ v1)).card < n := by
          have := card_le_of_suffix start light hs1
          omega
        obtain ⟨p2, h2⟩ := Option.isSome_iff_exists.mp
          (ih v1 (addDir pos (rotL dir)) (hnb (rotL dir)) hcard2)
        obtain ⟨o2, v2⟩ := p2
        have hs2 : v1 <:+ v2 := losRec2_suffix _ _ _ _ _ _ _ _ h2
        have hcard3 : ((box start light).filter (fun c => c ∉ v2)).card < n := by
          have h21 := card_le_of_suffix start light hs2
          have h22 := card_le_of_suffix start light hs1
          omega
        obtain ⟨p3, h3⟩ := Option.isSome_iff_exists.mp
          (ih v2 (addDir pos (rotR dir)) (hnb (rotR dir)) hcard3)
        obtain ⟨o3, v3⟩ := p3
        simp only [h1, h2, h3]
        rfl
      · rw [if_neg hchk]
        rfl

end Los2

/-- C2 (amended): for finite positive `light` and an opaqueness function
returning at least 1 at every coordinate (the documented convention: 1 for
fully transparent cells), every per-direction sweep terminates in both LOS
variants; for the angle-recursive variant fuel `light.toNat + 1` suffices
(recursion depth is bounded by the light budget), and for the hybrid
variant termination holds given that the line collaborator's `i`-th
interpolated cells lie within distance `i` of the origin.  With
opaqueness 0 everywhere neither sweep terminates (see the
counterexample). -/
theorem los_sweeps_terminate {opaq : Hex.Coord → Int}
    {lineTo : Hex.Coord → Hex.Coord → List (Hex.Coord × Hex.Coord)}
    {dcw : Hex.Coord → Hex.Coord → Option Hex.Dir}
    (Hop : ∀ c, 1 ≤ opaq c)
    (HL : ∀ s p, ∀ i (h : i < (lineTo s p).length),
      Los2.inBox s (((lineTo s p).get ⟨i, h⟩).1) i ∧
      Los2.inBox s (((lineTo s p).get ⟨i, h⟩).2) i)
    {light : Int} (hlight : 0 < light) (pos : Hex.Coord) (d : Hex.Dir) :
    (∃ n, (Los.losRecFuel opaq n light pos d d none none).isSome) ∧
    (∃ n, (Los2.losRec2Fuel opaq lineTo dcw n light pos pos d []).isSome) := by
  constructor
  · refine ⟨light.toNat + 1, ?_⟩
    exact Los.losRecFuel_isSome_of_pos Hop light.toNat light pos d d none none
      (Int.self_le_toNat light)
  · refine ⟨((Los2.box pos light).filter
      (fun c => c ∉ ([] : List Hex.Coord))).card + 1, ?_⟩
    exact Los2.losRec2_isSome Hop HL hlight _ [] pos
      (Los2.inBox_self pos (le_of_lt hlight)) (by omega)

theorem los_sweeps_terminate_witness :
    (∃ n, (Los.losRecFuel (fun _ => 1) n 2 ((0, 0) : Hex.Coord) 0 0 none none).isSome) ∧
    (∃ n, (Los2.losRec2Fuel (fun _ => 1) (fun _ _ => []) (fun _ _ => none) n 2
      ((0, 0) : Hex.Coord) ((0, 0) : Hex.Coord) 0 []).isSome) :=
  los_sweeps_terminate (fun _ => le_refl 1)
    (fun s p i h => absurd h (by simp))
    (by norm_num) (0, 0) 0
